import Mathlib

/-!
Shallow embedding of the resolution engine of the davinci-suite-scripts
repository: the text normalizer and similarity scorer
(`products/t4_caption_layout_protector/core/similarity.py`), the
revision-resolver mapping algorithm
(`products/t1_revision_resolver/tools/t1_revision_resolver.py`), and the
transaction log (`products/t7_component_graphics/core/transactions.py`).
Python strings are modelled as Lean `String`/`List Char` (lowercasing via
`Char.toLower`, which agrees with Python `str.lower` on ASCII), floats as `ℚ`,
dictionaries with optional keys as structures with `Option` fields, and the
external `re.search` / relink collaborators as explicit function parameters.
-/

set_option maxRecDepth 100000

namespace DavinciSuite

/-- The character class of the token regex `[a-z0-9]+` used by
`normalize`/`tokenize` in `core/similarity.py`: lowercase ASCII letters and
digits. -/
def isLowerAlnum (c : Char) : Bool :=
  (97 ≤ c.toNat && c.toNat ≤ 122) || (48 ≤ c.toNat && c.toNat ≤ 57)

/-- Maximal-run scanner implementing `re.findall(r"[a-z0-9]+", text)`:
`acc` holds the reversed run currently being read. -/
def runsAux : List Char → List Char → List (List Char)
  | [], acc => if acc.isEmpty then [] else [acc.reverse]
  | c :: cs, acc =>
    if isLowerAlnum c then runsAux cs (c :: acc)
    else if acc.isEmpty then runsAux cs []
    else acc.reverse :: runsAux cs []

/-- `_token_re.findall(text.lower())` at the `List Char` level. -/
def tokenizeL (cs : List Char) : List (List Char) :=
  runsAux (cs.map Char.toLower) []

/-- `tokenize(text)` from `core/similarity.py`. -/
def tokenize (s : String) : List String :=
  (tokenizeL s.data).map String.mk

/-- `" ".join(tokens)` at the `List Char` level (`Char.ofNat 32` is the
space character). -/
def joinSp : List (List Char) → List Char
  | [] => []
  | [t] => t
  | t :: ts => t ++ Char.ofNat 32 :: joinSp ts

/-- `normalize(text)` from `core/similarity.py` at the `List Char` level. -/
def normalizeL (cs : List Char) : List Char :=
  joinSp (tokenizeL cs)

/-- `normalize(text)` from `core/similarity.py`. -/
def normalize (s : String) : String :=
  String.mk (normalizeL s.data)

/-- `_tokens_match(source, target)` from `t1_revision_resolver.py`:
the set of source tokens is nonempty and a subset of the target tokens. -/
def tokens_match (source target : String) : Bool :=
  let st := tokenize source
  let tt := tokenize target
  !st.isEmpty && st.all (fun t => tt.contains t)

/-- Textbook Levenshtein recurrence, used as the specification the
rolling-row implementation is proved against. -/
def levSpec : List Char → List Char → Nat
  | [], b => b.length
  | a :: as, [] => (a :: as).length
  | a :: as, b :: bs =>
    min (min (levSpec as (b :: bs) + 1) (levSpec (a :: as) bs + 1))
      (levSpec as bs + (if a = b then 0 else 1))

/-- Inner loop of `levenshtein` from `core/similarity.py`: given the previous
row (starting at column `j - 1`) and the current row value `left = curr[j-1]`,
produce the rest of the current row. -/
def levRowAux (ca : Char) : List Char → List Nat → Nat → List Nat
  | cb :: bs, diag :: up :: rest, left =>
    let v := min (min (left + 1) (up + 1)) (diag + (if ca = cb then 0 else 1))
    v :: levRowAux ca bs (up :: rest) v
  | _, _, _ => []

/-- Outer loop of `levenshtein` from `core/similarity.py`: fold the rows over
the characters of `a`, with `i` the current row index. -/
def levLoop : List Char → List Char → List Nat → Nat → List Nat
  | [], _, prev, _ => prev
  | ca :: as, b, prev, i => levLoop as b (i :: levRowAux ca b prev i) (i + 1)

/-- `levenshtein(a, b)` from `core/similarity.py` at the `List Char` level:
the early-out equality/empty checks followed by the two-row dynamic
program, returning the last entry of the final row (`prev[-1]`). -/
def levenshteinL (a b : List Char) : Nat :=
  if a = b then 0
  else if a.isEmpty then b.length
  else if b.isEmpty then a.length
  else (levLoop a b (List.range (b.length + 1)) 1).getLastD 0

/-- `levenshtein(a, b)` from `core/similarity.py`. -/
def levenshtein (a b : String) : Nat :=
  levenshteinL a.data b.data

/-- `similarity_ratio(a, b)` from `core/similarity.py`
(Python floats modelled as `ℚ`). -/
def similarity_ratio (a b : String) : ℚ :=
  if a.isEmpty && b.isEmpty then 1
  else 1 - (levenshtein a b : ℚ) / ((max a.length b.length : ℕ) : ℚ)

/-- The `MatchResult` dataclass from `core/similarity.py`. -/
structure MatchResult where
  candidate : String
  score : ℚ
  method : String
deriving DecidableEq

/-- The score `best_match` assigns to candidate `c` for target `t`. -/
def scoreOf (t c : String) : ℚ :=
  similarity_ratio (normalize t) (normalize c)

/-- The candidate loop of `best_match` from `core/similarity.py`
(`nt` is the already-normalized target, `best` the running best). -/
def bestLoop (nt : String) : List String → Option MatchResult → Option MatchResult
  | [], best => best
  | c :: cs, best =>
    let score := similarity_ratio nt (normalize c)
    match best with
    | none => bestLoop nt cs (some ⟨c, score, "levenshtein"⟩)
    | some b =>
      if score > b.score then bestLoop nt cs (some ⟨c, score, "levenshtein"⟩)
      else bestLoop nt cs (some b)

/-- `best_match(target, candidates)` from `core/similarity.py`. -/
def best_match (target : String) (candidates : List String) : Option MatchResult :=
  bestLoop (normalize target) candidates none

/-- A mapping-pack rule: a Python dict with optional keys, read by
`_map_target` through `rule.get(...)`. -/
structure Rule where
  source : Option String
  strategy : Option String
  target : Option String
  similarity_threshold : Option ℚ
deriving DecidableEq

/-- The `{}` dict that `_map_target` returns as the matched rule for
index and fuzzy hits. -/
def emptyRule : Rule := ⟨none, none, none, none⟩

/-- The mapping-pack fields `_map_target` consults
(`mapping.get("rules", [])`, `mapping.get("similarity_threshold", 0.9)`). -/
structure MappingPack where
  rules : List Rule
  similarity_threshold : Option ℚ
deriving DecidableEq

/-- The replacement index: a Python dict `normalized name -> path`,
modelled as its bindings in insertion order. -/
abbrev Index : Type := List (String × String)

/-- The keys of the index dict, in insertion order (`index.keys()`). -/
def keys (idx : Index) : List String := idx.map Prod.fst

/-- Dict lookup (`k in index` / `index[k]`); keys are unique by dict
construction, so the first binding is the binding. -/
def find : Index → String → Option String
  | [], _ => none
  | (k, v) :: rest, s => if k = s then some v else find rest s

/-- Python dict assignment `index[k] = v`: overwrite in place when the key
is present, append otherwise. -/
def dictInsert : Index → String → String → Index
  | [], k, v => [(k, v)]
  | (k1, v1) :: rest, k, v =>
    if k1 = k then (k1, v) :: rest else (k1, v1) :: dictInsert rest k v

/-- `_build_replacement_index(mapping)` from `t1_revision_resolver.py`, with
the `os.walk` enumeration (an external collaborator) supplied as the list of
`(filename, full path)` pairs it yields. -/
def build_replacement_index (files : List (String × String)) : Index :=
  files.foldl (fun idx p => dictInsert idx (normalize p.1) p.2) []

/-- One rule evaluation inside the `for rule in rules` loop of `_map_target`.
`reSearch pat s` models the external `re.search(pat, s, flags=re.IGNORECASE)`:
`none` when the pattern does not compile (`re.error`), otherwise whether a
match was found anywhere in `s`. `.error ()` models the uncaught `re.error`
escaping the loop. -/
def evalRule (reSearch : String → String → Option Bool) (name normalized : String)
    (packThreshold : Option ℚ) (r : Rule) : Except Unit Bool :=
  let src := r.source.getD ""
  let source := normalize src
  let strategy := r.strategy.getD "exact"
  if source ≠ "" ∧ source = normalized ∧ (strategy = "" ∨ strategy = "exact") then
    .ok true
  else if strategy = "regex" then
    match reSearch src name with
    | none => .error ()
    | some found => .ok found
  else if strategy = "token" then
    .ok (tokens_match source normalized)
  else if strategy = "similarity" then
    .ok (decide (r.similarity_threshold.getD (packThreshold.getD (9 / 10)) ≤
      similarity_ratio source normalized))
  else
    .ok false

/-- The rule loop of `_map_target`: first matching rule wins, an
uncompilable regex pattern raises out of the loop. -/
def ruleLoop (reSearch : String → String → Option Bool) (name normalized : String)
    (packThreshold : Option ℚ) : List Rule → Except Unit (Option Rule)
  | [] => .ok none
  | r :: rs =>
    match evalRule reSearch name normalized packThreshold r with
    | .error e => .error e
    | .ok true => .ok (some r)
    | .ok false => ruleLoop reSearch name normalized packThreshold rs

/-- `_map_target(name, mapping, index)` from `t1_revision_resolver.py`:
the rules in declaration order, then the direct index hit on the normalized
name, then the fuzzy `best_match` fallback gated by the pack threshold. -/
def map_target (reSearch : String → String → Option Bool) (name : String)
    (pack : MappingPack) (index : Index) : Except Unit (Option String × Option Rule) :=
  let normalized := normalize name
  match ruleLoop reSearch name normalized pack.similarity_threshold pack.rules with
  | .error e => .error e
  | .ok (some r) => .ok (r.target, some r)
  | .ok none =>
    match find index normalized with
    | some path => .ok (some path, some emptyRule)
    | none =>
      match best_match name (keys index) with
      | some b =>
        if pack.similarity_threshold.getD (9 / 10) ≤ b.score then
          .ok (find index b.candidate, some emptyRule)
        else .ok (none, none)
      | none => .ok (none, none)

/-- One dict appended by `Transaction.record`
(`{"action": "relink", "clip": ..., "target": ..., "dry_run": ...}`). -/
structure RecordedAction where
  action : String
  clip : String
  target : String
  dry_run : Bool
deriving DecidableEq

/-- The relink/record tail of the per-item loop in `RevisionResolver.run`:
in dry-run mode record unconditionally; otherwise call the external
`relink_media` (modelled by `relinkOk`) and record only on success. -/
def swapStep (dryRun : Bool) (relinkOk : String → String → Bool)
    (nm tgt : String) (actions : List RecordedAction) : List RecordedAction :=
  if dryRun then actions ++ [⟨"relink", nm, tgt, true⟩]
  else if relinkOk nm tgt then actions ++ [⟨"relink", nm, tgt, false⟩]
  else actions

/-- The swap phase of `RevisionResolver.run` over the resolved
`(name, target)` pairs of one run, threading the transaction's
`actions` log. -/
def runSwaps (dryRun : Bool) (relinkOk : String → String → Bool) :
    List (String × String) → List RecordedAction → List RecordedAction
  | [], actions => actions
  | (nm, tgt) :: rest, actions =>
    runSwaps dryRun relinkOk rest (swapStep dryRun relinkOk nm tgt actions)

/-- Row segments of the Levenshtein dynamic program, expressed through the
reference recurrence: the values `levSpec xs (cb_1..cb_k reversed ++ u)` as
the inner loop walks `bs`. -/
def rowTail (xs : List Char) : List Char → List Char → List Nat
  | _, [] => []
  | u, cb :: bs => levSpec xs (cb :: u) :: rowTail xs (cb :: u) bs

/-- A full dynamic-program row, head exposed. -/
def rowSeg (xs u bs : List Char) : List Nat :=
  levSpec xs u :: rowTail xs u bs

lemma levSpec_nil_left (b : List Char) : levSpec [] b = b.length := by
  cases b <;> simp [levSpec]

lemma levSpec_nil_right (a : List Char) : levSpec a [] = a.length := by
  cases a <;> simp [levSpec]

lemma levSpec_cons_cons (a b : Char) (as bs : List Char) :
    levSpec (a :: as) (b :: bs) =
      min (min (levSpec as (b :: bs) + 1) (levSpec (a :: as) bs + 1))
        (levSpec as bs + (if a = b then 0 else 1)) := by
  rw [levSpec]

lemma levSpec_self : ∀ xs : List Char, levSpec xs xs = 0 := by
  intro xs
  induction xs with
  | nil => simp [levSpec]
  | cons x xs ih =>
    rw [levSpec_cons_cons, ih]
    simp

lemma levSpec_comm : ∀ xs ys : List Char, levSpec xs ys = levSpec ys xs := by
  intro xs
  induction xs with
  | nil =>
    intro ys
    rw [levSpec_nil_left, levSpec_nil_right]
  | cons x xs ihx =>
    intro ys
    induction ys with
    | nil => rw [levSpec_nil_left, levSpec_nil_right]
    | cons y ys ihy =>
      rw [levSpec_cons_cons, levSpec_cons_cons]
      rw [ihx (y :: ys), ihx ys, ← ihy]
      have hc : (if x = y then 0 else 1) = (if y = x then 0 else 1) := by
        by_cases h : x = y
        · simp [h]
        · have h2 : ¬ y = x := fun hyx => h hyx.symm
          simp [h, h2]
      rw [hc]
      omega

lemma levSpec_length_bound : ∀ xs ys : List Char,
    ys.length ≤ levSpec xs ys + xs.length ∧ xs.length ≤ levSpec xs ys + ys.length := by
  intro xs
  induction xs with
  | nil =>
    intro ys
    rw [levSpec_nil_left]
    simp
  | cons x xs ihx =>
    intro ys
    induction ys with
    | nil =>
      rw [levSpec_nil_right]
      simp
    | cons y ys ihy =>
      rw [levSpec_cons_cons]
      have h1 := ihx (y :: ys)
      have h3 := ihx ys
      simp only [List.length_cons] at h1 ihy ⊢
      by_cases h : x = y
      · rw [if_pos h]
        omega
      · rw [if_neg h]
        omega

lemma levRowAux_rowSeg (ca : Char) (xs : List Char) :
    ∀ bs u : List Char,
      levRowAux ca bs (rowSeg xs u bs) (levSpec (ca :: xs) u) = rowTail (ca :: xs) u bs := by
  intro bs
  induction bs with
  | nil =>
    intro u
    simp [rowSeg, rowTail, levRowAux]
  | cons cb bs ih =>
    intro u
    have hv : min (min (levSpec (ca :: xs) u + 1) (levSpec xs (cb :: u) + 1))
        (levSpec xs u + (if ca = cb then 0 else 1)) = levSpec (ca :: xs) (cb :: u) := by
      rw [levSpec_cons_cons, Nat.min_comm (levSpec xs (cb :: u) + 1) (levSpec (ca :: xs) u + 1)]
    show levRowAux ca (cb :: bs)
        (levSpec xs u :: levSpec xs (cb :: u) :: rowTail xs (cb :: u) bs)
        (levSpec (ca :: xs) u) = rowTail (ca :: xs) u (cb :: bs)
    rw [levRowAux]
    show (min (min (levSpec (ca :: xs) u + 1) (levSpec xs (cb :: u) + 1))
        (levSpec xs u + (if ca = cb then 0 else 1))) ::
        levRowAux ca bs (levSpec xs (cb :: u) :: rowTail xs (cb :: u) bs)
          (min (min (levSpec (ca :: xs) u + 1) (levSpec xs (cb :: u) + 1))
            (levSpec xs u + (if ca = cb then 0 else 1))) =
      levSpec (ca :: xs) (cb :: u) :: rowTail (ca :: xs) (cb :: u) bs
    rw [hv]
    exact congrArg _ (ih (cb :: u))

lemma levLoop_rowSeg (b : List Char) :
    ∀ as xs : List Char,
      levLoop as b (rowSeg xs [] b) (xs.length + 1) = rowSeg (as.reverse ++ xs) [] b := by
  intro as
  induction as with
  | nil =>
    intro xs
    simp [levLoop]
  | cons ca as ih =>
    intro xs
    rw [levLoop]
    have hlen : xs.length + 1 = levSpec (ca :: xs) [] := by
      rw [levSpec_nil_right, List.length_cons]
    have hrow : (xs.length + 1) :: levRowAux ca b (rowSeg xs [] b) (xs.length + 1)
        = rowSeg (ca :: xs) [] b := by
      rw [hlen, levRowAux_rowSeg ca xs b []]
      rfl
    rw [hrow]
    have hstep : xs.length + 1 + 1 = (ca :: xs).length + 1 := by
      rw [List.length_cons]
    rw [hstep, ih (ca :: xs)]
    have harr : as.reverse ++ ca :: xs = (ca :: as).reverse ++ xs := by
      rw [List.reverse_cons, List.append_assoc]
      rfl
    rw [harr]

lemma rowTail_nil_left : ∀ bs u : List Char,
    rowTail [] u bs = List.range' (u.length + 1) bs.length := by
  intro bs
  induction bs with
  | nil =>
    intro u
    simp [rowTail]
  | cons cb bs ih =>
    intro u
    show levSpec [] (cb :: u) :: rowTail [] (cb :: u) bs = _
    rw [levSpec_nil_left, ih (cb :: u), List.length_cons, List.length_cons,
      List.range'_succ]

lemma rowSeg_nil_left (b : List Char) : rowSeg [] [] b = List.range (b.length + 1) := by
  rw [rowSeg, rowTail_nil_left, levSpec_nil_left, List.range_eq_range', List.range'_succ]
  rfl

lemma rowSeg_getLastD (xs : List Char) :
    ∀ (bs u : List Char) (d : Nat),
      (rowSeg xs u bs).getLastD d = levSpec xs (bs.reverse ++ u) := by
  intro bs
  induction bs with
  | nil =>
    intro u d
    simp [rowSeg, rowTail]
  | cons cb bs ih =>
    intro u d
    show (levSpec xs u :: rowSeg xs (cb :: u) bs).getLastD d = _
    rw [List.getLastD_cons, ih (cb :: u) (levSpec xs u)]
    have : (cb :: bs).reverse ++ u = bs.reverse ++ cb :: u := by
      rw [List.reverse_cons, List.append_assoc]
      rfl
    rw [this]

lemma levenshteinL_eq_levSpec (a b : List Char) :
    levenshteinL a b = levSpec a.reverse b.reverse := by
  rw [levenshteinL]
  by_cases hab : a = b
  · subst hab
    rw [if_pos rfl, levSpec_self]
  · rw [if_neg hab]
    by_cases ha : a.isEmpty
    · rw [if_pos ha]
      have h : a = [] := by
        cases a
        · rfl
        · simp [List.isEmpty] at ha
      subst h
      rw [List.reverse_nil, levSpec_nil_left, List.length_reverse]
    · rw [if_neg ha]
      by_cases hb : b.isEmpty
      · rw [if_pos hb]
        have h : b = [] := by
          cases b
          · rfl
          · simp [List.isEmpty] at hb
        subst h
        rw [List.reverse_nil, levSpec_nil_right, List.length_reverse]
      · rw [if_neg hb]
        rw [← rowSeg_nil_left]
        have h := levLoop_rowSeg b a []
        simp only [List.length_nil, List.append_nil, Nat.zero_add] at h
        rw [h, rowSeg_getLastD, List.append_nil]

lemma levenshtein_eq_levSpec (a b : String) :
    levenshtein a b = levSpec a.data.reverse b.data.reverse :=
  levenshteinL_eq_levSpec a.data b.data

lemma levenshtein_comm (a b : String) : levenshtein a b = levenshtein b a := by
  rw [levenshtein_eq_levSpec, levenshtein_eq_levSpec, levSpec_comm]

/-- C8: for all strings `a` and `b`,
`similarity_ratio(a, b) == similarity_ratio(b, a)` — symmetry, inherited from
the symmetry of the Levenshtein edit distance. -/
theorem similarity_ratio_symm (a b : String) :
    similarity_ratio a b = similarity_ratio b a := by
  rw [similarity_ratio, similarity_ratio, levenshtein_comm a b,
    Nat.max_comm a.length b.length, Bool.and_comm a.isEmpty b.isEmpty]

/-- C9: for all strings `a` and `b`,
`levenshtein(a, b) >= abs(len(a) - len(b))`. -/
theorem levenshtein_ge_length_diff (a b : String) :
    |(a.length : ℤ) - (b.length : ℤ)| ≤ (levenshtein a b : ℤ) := by
  have h := levSpec_length_bound a.data.reverse b.data.reverse
  simp only [List.length_reverse] at h
  rw [levenshtein_eq_levSpec]
  have hA : a.data.length = a.length := rfl
  have hB : b.data.length = b.length := rfl
  rw [hA, hB] at h
  rw [abs_sub_le_iff]
  constructor <;> omega

lemma toLower_fix {c : Char} (h : isLowerAlnum c = true ∨ c = Char.ofNat 32) :
    c.toLower = c := by
  have hn : ¬(c.toNat ≥ 65 ∧ c.toNat ≤ 90) := by
    rcases h with h | h
    · simp only [isLowerAlnum, Bool.or_eq_true, Bool.and_eq_true, decide_eq_true_eq] at h
      omega
    · subst h
      decide
  simp only [Char.toLower]
  rw [if_neg hn]

lemma map_toLower_fix (cs : List Char)
    (h : ∀ c ∈ cs, isLowerAlnum c = true ∨ c = Char.ofNat 32) :
    cs.map Char.toLower = cs := by
  induction cs with
  | nil => rfl
  | cons c cs ih =>
    rw [List.map_cons, toLower_fix (h c (by simp)), ih (fun x hx => h x (by simp [hx]))]

lemma runsAux_tokens : ∀ cs acc : List Char,
    (∀ c ∈ acc, isLowerAlnum c = true) →
    ∀ t ∈ runsAux cs acc, t ≠ [] ∧ ∀ c ∈ t, isLowerAlnum c = true := by
  intro cs
  induction cs with
  | nil =>
    intro acc hacc t ht
    rw [runsAux] at ht
    by_cases h : acc.isEmpty
    · rw [if_pos h] at ht
      exact absurd ht (List.not_mem_nil t)
    · rw [if_neg h] at ht
      rcases List.mem_singleton.mp ht with rfl
      constructor
      · intro hr
        exact h (by simp [List.isEmpty_iff, ← List.reverse_eq_nil_iff, hr])
      · intro c hc
        exact hacc c (List.mem_reverse.mp hc)
  | cons c cs ih =>
    intro acc hacc t ht
    rw [runsAux] at ht
    by_cases hc : isLowerAlnum c
    · rw [if_pos hc] at ht
      refine ih (c :: acc) ?_ t ht
      intro x hx
      rcases List.mem_cons.mp hx with rfl | hx
      · exact hc
      · exact hacc x hx
    · rw [if_neg hc] at ht
      by_cases ha : acc.isEmpty
      · rw [if_pos ha] at ht
        exact ih [] (by simp) t ht
      · rw [if_neg ha] at ht
        rcases List.mem_cons.mp ht with rfl | ht
        · constructor
          · intro hr
            exact ha (by simp [List.isEmpty_iff, ← List.reverse_eq_nil_iff, hr])
          · intro x hx
            exact hacc x (List.mem_reverse.mp hx)
        · exact ih [] (by simp) t ht

lemma runsAux_append_run : ∀ t cs acc : List Char,
    (∀ c ∈ t, isLowerAlnum c = true) →
    runsAux (t ++ cs) acc = runsAux cs (t.reverse ++ acc) := by
  intro t
  induction t with
  | nil =>
    intro cs acc h
    simp
  | cons c t ih =>
    intro cs acc h
    show runsAux (c :: (t ++ cs)) acc = _
    rw [runsAux, if_pos (h c (by simp)), ih cs (c :: acc) (fun x hx => h x (by simp [hx]))]
    congr 1
    rw [List.reverse_cons, List.append_assoc]
    rfl

lemma runsAux_space (cs acc : List Char) (hacc : acc ≠ []) :
    runsAux (Char.ofNat 32 :: cs) acc = acc.reverse :: runsAux cs [] := by
  have h32 : isLowerAlnum (Char.ofNat 32) = false := by decide
  have hne : acc.isEmpty = false := by simpa [List.isEmpty_eq_false] using hacc
  rw [runsAux, h32]
  simp [hne]

lemma runsAux_joinSp : ∀ ts : List (List Char),
    (∀ t ∈ ts, t ≠ [] ∧ ∀ c ∈ t, isLowerAlnum c = true) →
    runsAux (joinSp ts) [] = ts := by
  intro ts
  induction ts with
  | nil => intro _; rfl
  | cons t ts ih =>
    intro h
    have ht := h t (by simp)
    cases ts with
    | nil =>
      rw [show joinSp [t] = t from rfl]
      rw [show t = t ++ ([] : List Char) by simp, runsAux_append_run t [] [] ht.2]
      rw [runsAux]
      rw [if_neg (by simp [List.isEmpty_iff, ht.1])]
      simp
    | cons t2 ts2 =>
      rw [show joinSp (t :: t2 :: ts2) = t ++ Char.ofNat 32 :: joinSp (t2 :: ts2) from rfl]
      rw [runsAux_append_run t _ [] ht.2, List.append_nil]
      rw [runsAux_space _ _ (by simp [ht.1])]
      rw [List.reverse_reverse, ih (fun x hx => h x (by simp [hx]))]

lemma joinSp_chars : ∀ ts : List (List Char),
    (∀ t ∈ ts, ∀ c ∈ t, isLowerAlnum c = true) →
    ∀ c ∈ joinSp ts, isLowerAlnum c = true ∨ c = Char.ofNat 32 := by
  intro ts
  induction ts with
  | nil =>
    intro _ c hc
    exact absurd hc (List.not_mem_nil c)
  | cons t ts ih =>
    intro h c hc
    cases ts with
    | nil => exact Or.inl (h t (by simp) c hc)
    | cons t2 ts2 =>
      rw [show joinSp (t :: t2 :: ts2) = t ++ Char.ofNat 32 :: joinSp (t2 :: ts2) from rfl] at hc
      rcases List.mem_append.mp hc with hc | hc
      · exact Or.inl (h t (by simp) c hc)
      · rcases List.mem_cons.mp hc with rfl | hc
        · exact Or.inr rfl
        · exact ih (fun x hx => h x (by simp [hx])) c hc

lemma tokenizeL_normalizeL (cs : List Char) : tokenizeL (normalizeL cs) = tokenizeL cs := by
  have htoks := runsAux_tokens (cs.map Char.toLower) [] (by simp)
  rw [normalizeL, tokenizeL, tokenizeL]
  rw [map_toLower_fix _ (joinSp_chars _ (fun t ht c hc => (htoks t ht).2 c hc))]
  exact runsAux_joinSp _ htoks

lemma normalizeL_idem (cs : List Char) : normalizeL (normalizeL cs) = normalizeL cs := by
  rw [normalizeL, tokenizeL_normalizeL]
  rfl

lemma normalize_idem (s : String) : normalize (normalize s) = normalize s := by
  rw [normalize, normalize]
  exact congrArg String.mk (normalizeL_idem s.data)

lemma keys_cons (k v : String) (idx : Index) : keys ((k, v) :: idx) = k :: keys idx := rfl

lemma mem_keys_dictInsert : ∀ (idx : Index) (k v x : String),
    x ∈ keys (dictInsert idx k v) → x ∈ keys idx ∨ x = k := by
  intro idx
  induction idx with
  | nil =>
    intro k v x hx
    rcases List.mem_singleton.mp hx with rfl
    exact Or.inr rfl
  | cons p rest ih =>
    intro k v x hx
    obtain ⟨k1, v1⟩ := p
    rw [dictInsert] at hx
    by_cases h : k1 = k
    · rw [if_pos h, keys_cons] at hx
      rcases List.mem_cons.mp hx with rfl | hx
      · exact Or.inl (by rw [keys_cons]; exact List.mem_cons_self _ _)
      · exact Or.inl (by rw [keys_cons]; exact List.mem_cons_of_mem _ hx)
    · rw [if_neg h, keys_cons] at hx
      rcases List.mem_cons.mp hx with rfl | hx
      · exact Or.inl (by rw [keys_cons]; exact List.mem_cons_self _ _)
      · rcases ih k v x hx with h2 | h2
        · exact Or.inl (by rw [keys_cons]; exact List.mem_cons_of_mem _ h2)
        · exact Or.inr h2

lemma foldl_dictInsert_keys : ∀ (files : List (String × String)) (acc : Index),
    (∀ k ∈ keys acc, normalize k = k) →
    ∀ k ∈ keys (files.foldl (fun idx p => dictInsert idx (normalize p.1) p.2) acc),
      normalize k = k := by
  intro files
  induction files with
  | nil =>
    intro acc h
    exact h
  | cons f fs ih =>
    intro acc h
    rw [List.foldl_cons]
    refine ih _ ?_
    intro k hk
    rcases mem_keys_dictInsert acc (normalize f.1) f.2 k hk with h2 | h2
    · exact h k h2
    · rw [h2]
      exact normalize_idem f.1

/-- C10: `normalize` is idempotent — `normalize(normalize(s)) == normalize(s)`
for every string — and consequently every key of the replacement index (each
of which was stored as `normalize(filename)`) is a fixed point of `normalize`,
so the re-normalization `best_match` applies to the keys during the fuzzy
fallback scores the very strings the index was keyed on. -/
theorem normalize_idempotent :
    (∀ s : String, normalize (normalize s) = normalize s) ∧
    (∀ (files : List (String × String)) (k : String),
      k ∈ keys (build_replacement_index files) → normalize k = k) := by
  constructor
  · exact normalize_idem
  · intro files k hk
    refine foldl_dictInsert_keys files [] ?_ k hk
    intro k2 hk2
    exact absurd hk2 (List.not_mem_nil k2)

/-- Witness for `normalize_idempotent`: a concrete string and a concrete
one-file index key. -/
theorem normalize_idempotent_witness :
    normalize (normalize "My-File_01.MOV") = normalize "My-File_01.MOV" ∧
    normalize "my file 01 mov" = "my file 01 mov" :=
  ⟨normalize_idempotent.1 "My-File_01.MOV",
   normalize_idempotent.2 [("My-File_01.MOV", "/media/My-File_01.MOV")]
     "my file 01 mov" (by decide)⟩

/-- C3 counterexample: `normalize` rejoins tokens with single spaces, so
`normalize("My-File_01.MOV")` is `"my file 01 mov"`, which differs from
`normalize("myfile01mov") = "myfile01mov"`. -/
theorem normalize_punctuation_ne :
    normalize "My-File_01.MOV" ≠ normalize "myfile01mov" := by decide

/-- C3 amended: normalization is case- and punctuation-insensitive only up to
token boundaries — separators collapse to single spaces rather than being
deleted, so `normalize("My-File_01.MOV") = "my file 01 mov"`, which equals
the normalization of any same-token variant such as `"My file-01 MOV"`. -/
theorem normalize_punctuation_insensitive :
    normalize "My-File_01.MOV" = "my file 01 mov" ∧
    normalize "My-File_01.MOV" = normalize "My file-01 MOV" := by decide

lemma tokens_match_iff (a b : String) :
    tokens_match a b = true ↔ (tokenize a ≠ [] ∧ ∀ t ∈ tokenize a, t ∈ tokenize b) := by
  rw [tokens_match]
  simp only [Bool.and_eq_true, Bool.not_eq_true', List.isEmpty_eq_false, List.all_eq_true,
    List.contains, List.elem_eq_mem, decide_eq_true_eq]

/-- C6 amended: a rule with strategy `token` matches exactly when the token
set of the normalized rule source is nonempty AND a subset of the token set
of the normalized asset name — `_tokens_match` explicitly returns `False`
for an empty source token set, so the vacuous empty-subset case does not
match. -/
theorem token_rule_matches_iff (reSearch : String → String → Option Bool)
    (name : String) (θ : Option ℚ) (r : Rule)
    (hstrat : r.strategy = some "token") :
    evalRule reSearch name (normalize name) θ r = .ok true ↔
      (tokenize (normalize (r.source.getD "")) ≠ [] ∧
        ∀ t ∈ tokenize (normalize (r.source.getD "")), t ∈ tokenize (normalize name)) := by
  have hs : r.strategy.getD "exact" = "token" := by rw [hstrat]; rfl
  simp only [evalRule, hs]
  rw [if_neg (fun h => absurd h.2.2 (by decide))]
  rw [if_neg (by decide : ¬("token" : String) = "regex")]
  simp only [if_true, Except.ok.injEq]
  exact tokens_match_iff _ _

/-- Witness for `token_rule_matches_iff`: the rule `"red car"` (strategy
`token`) matches the asset name `"My Red Car 2"`. -/
theorem token_rule_matches_iff_witness :
    evalRule (fun _ _ => some false) "My Red Car 2" (normalize "My Red Car 2") none
      ⟨some "red car", some "token", some "swap.mov", none⟩ = .ok true :=
  (token_rule_matches_iff (fun _ _ => some false) "My Red Car 2" none
      ⟨some "red car", some "token", some "swap.mov", none⟩ rfl).mpr (by decide)

/-- C6 counterexample: a `token` rule whose source has no tokens does not
match any name — here the source token set is empty, hence a subset of the
name's token set, yet `evalRule` returns `ok false`, refuting the claim that
subset inclusion alone (including the empty case) decides the match. -/
theorem token_rule_empty_source_no_match :
    evalRule (fun _ _ => some false) "x" (normalize "x") none
      ⟨some "", some "token", some "target.mov", none⟩ = .ok false ∧
    tokenize (normalize "") = [] := by
  constructor
  · rfl
  · decide

lemma bestLoop_invariant (t : String) : ∀ (cs : List String) (b : MatchResult),
    ∃ r, bestLoop (normalize t) cs (some b) = some r ∧
      ((r = b ∧ ∀ j (hj : j < cs.length), scoreOf t (cs.get ⟨j, hj⟩) ≤ b.score) ∨
        (∃ i, ∃ hi : i < cs.length,
          r.candidate = cs.get ⟨i, hi⟩ ∧
          r.score = scoreOf t (cs.get ⟨i, hi⟩) ∧
          b.score < r.score ∧
          (∀ j (hj : j < cs.length), scoreOf t (cs.get ⟨j, hj⟩) ≤ r.score) ∧
          (∀ j (hj : j < i), scoreOf t (cs.get ⟨j, Nat.lt_trans hj hi⟩) < r.score))) := by
  intro cs
  induction cs with
  | nil =>
    intro b
    refine ⟨b, rfl, Or.inl ⟨rfl, ?_⟩⟩
    intro j hj
    exact absurd hj (Nat.not_lt_zero j)
  | cons c cs ih =>
    intro b
    rw [bestLoop]
    by_cases hgt : similarity_ratio (normalize t) (normalize c) > b.score
    · rw [if_pos hgt]
      obtain ⟨r, hr, hcase⟩ :=
        ih ⟨c, similarity_ratio (normalize t) (normalize c), "levenshtein"⟩
      refine ⟨r, hr, Or.inr ?_⟩
      rcases hcase with ⟨rfl, hall⟩ | ⟨i, hi, hcand, hscore, hlt, hall, hfirst⟩
      · refine ⟨0, by simp, rfl, rfl, hgt, ?_, ?_⟩
        · intro j hj
          cases j with
          | zero => exact le_refl _
          | succ j => exact hall j (by simpa using hj)
        · intro j hj
          exact absurd hj (Nat.not_lt_zero j)
      · refine ⟨i + 1, by simpa using hi, hcand, hscore, lt_trans hgt hlt, ?_, ?_⟩
        · intro j hj
          cases j with
          | zero => exact le_of_lt hlt
          | succ j => exact hall j (by simpa using hj)
        · intro j hj
          cases j with
          | zero => exact hlt
          | succ j => exact hfirst j (by simpa using hj)
    · rw [if_neg hgt]
      obtain ⟨r, hr, hcase⟩ := ih b
      push_neg at hgt
      rcases hcase with ⟨rfl, hall⟩ | ⟨i, hi, hcand, hscore, hlt, hall, hfirst⟩
      · refine ⟨r, hr, Or.inl ⟨rfl, ?_⟩⟩
        intro j hj
        cases j with
        | zero => exact hgt
        | succ j => exact hall j (by simpa using hj)
      · refine ⟨r, hr, Or.inr ⟨i + 1, by simpa using hi, hcand, hscore, hlt, ?_, ?_⟩⟩
        · intro j hj
          cases j with
          | zero => exact le_trans hgt (le_of_lt hlt)
          | succ j => exact hall j (by simpa using hj)
        · intro j hj
          cases j with
          | zero => exact lt_of_le_of_lt hgt hlt
          | succ j => exact hfirst j (by simpa using hj)

/-- C7: `best_match` returns `none` exactly on an empty candidate sequence;
otherwise it returns a result whose candidate attains the maximum similarity
score over all candidates, and among ties the first-encountered candidate in
sequence order (every strictly earlier candidate scores strictly lower). -/
theorem best_match_spec (t : String) (cs : List String) :
    (best_match t cs = none ↔ cs = []) ∧
    ∀ r, best_match t cs = some r →
      ∃ i, ∃ hi : i < cs.length,
        r.candidate = cs.get ⟨i, hi⟩ ∧
        r.score = scoreOf t (cs.get ⟨i, hi⟩) ∧
        (∀ j (hj : j < cs.length), scoreOf t (cs.get ⟨j, hj⟩) ≤ r.score) ∧
        (∀ j (hj : j < i), scoreOf t (cs.get ⟨j, Nat.lt_trans hj hi⟩) < r.score) := by
  cases cs with
  | nil =>
    constructor
    · simp [best_match, bestLoop]
    · intro r hr
      rw [best_match] at hr
      exact absurd hr (by rw [bestLoop]; simp)
  | cons c cs =>
    obtain ⟨r0, hr0, hcase⟩ :=
      bestLoop_invariant t cs ⟨c, similarity_ratio (normalize t) (normalize c), "levenshtein"⟩
    have hbm : best_match t (c :: cs) = some r0 := by
      rw [best_match, bestLoop]
      exact hr0
    constructor
    · rw [hbm]
      simp
    · intro r hr
      rw [hbm] at hr
      injection hr with hr
      subst hr
      rcases hcase with ⟨rfl, hall⟩ | ⟨i, hi, hcand, hscore, hlt, hall, hfirst⟩
      · refine ⟨0, by simp, rfl, rfl, ?_, ?_⟩
        · intro j hj
          cases j with
          | zero => exact le_refl _
          | succ j => exact hall j (by simpa using hj)
        · intro j hj
          exact absurd hj (Nat.not_lt_zero j)
      · refine ⟨i + 1, by simpa using hi, hcand, hscore, ?_, ?_⟩
        · intro j hj
          cases j with
          | zero => exact le_of_lt hlt
          | succ j => exact hall j (by simpa using hj)
        · intro j hj
          cases j with
          | zero => exact hlt
          | succ j => exact hfirst j (by simpa using hj)

/-- Witness for `best_match_spec`: on the single-candidate list `["zz"]` for
target `"ab"`, the returned result is `"zz"` with its similarity score, and
the maximum/first-tie properties hold for it. -/
theorem best_match_spec_witness :
    ∃ i, ∃ hi : i < (["zz"] : List String).length,
      (⟨"zz", similarity_ratio (normalize "ab") (normalize "zz"), "levenshtein"⟩
          : MatchResult).candidate = (["zz"] : List String).get ⟨i, hi⟩ ∧
      (⟨"zz", similarity_ratio (normalize "ab") (normalize "zz"), "levenshtein"⟩
          : MatchResult).score = scoreOf "ab" ((["zz"] : List String).get ⟨i, hi⟩) ∧
      (∀ j (hj : j < (["zz"] : List String).length),
        scoreOf "ab" ((["zz"] : List String).get ⟨j, hj⟩) ≤
          (⟨"zz", similarity_ratio (normalize "ab") (normalize "zz"), "levenshtein"⟩
            : MatchResult).score) ∧
      (∀ j (hj : j < i),
        scoreOf "ab" ((["zz"] : List String).get ⟨j, Nat.lt_trans hj hi⟩) <
          (⟨"zz", similarity_ratio (normalize "ab") (normalize "zz"), "levenshtein"⟩
            : MatchResult).score) :=
  (best_match_spec "ab" ["zz"]).2
    ⟨"zz", similarity_ratio (normalize "ab") (normalize "zz"), "levenshtein"⟩ rfl

lemma ruleLoop_first_match (reSearch : String → String → Option Bool)
    (name nz : String) (θ : Option ℚ) :
    ∀ (rules : List Rule) (i : Nat) (hi : i < rules.length),
      evalRule reSearch name nz θ (rules.get ⟨i, hi⟩) = .ok true →
      (∀ j (hj : j < i),
        evalRule reSearch name nz θ (rules.get ⟨j, Nat.lt_trans hj hi⟩) = .ok false) →
      ruleLoop reSearch name nz θ rules = .ok (some (rules.get ⟨i, hi⟩)) := by
  intro rules
  induction rules with
  | nil =>
    intro i hi
    exact absurd hi (by simp)
  | cons r rs ih =>
    intro i hi hmatch hprev
    cases i with
    | zero =>
      rw [ruleLoop]
      rw [show (r :: rs).get ⟨0, hi⟩ = r from rfl] at hmatch
      rw [hmatch]
      rfl
    | succ i =>
      have h0 : evalRule reSearch name nz θ r = .ok false := hprev 0 (Nat.succ_pos i)
      rw [ruleLoop, h0]
      exact ih i (by simpa using hi) hmatch (fun j hj => hprev (j + 1) (Nat.succ_lt_succ hj))

lemma ruleLoop_none (reSearch : String → String → Option Bool)
    (name nz : String) (θ : Option ℚ) :
    ∀ rules : List Rule,
      (∀ i (hi : i < rules.length), evalRule reSearch name nz θ (rules.get ⟨i, hi⟩) = .ok false) →
      ruleLoop reSearch name nz θ rules = .ok none := by
  intro rules
  induction rules with
  | nil =>
    intro _
    rfl
  | cons r rs ih =>
    intro hall
    have h0 : evalRule reSearch name nz θ r = .ok false := hall 0 (Nat.succ_pos _)
    rw [ruleLoop, h0]
    exact ih (fun i hi => hall (i + 1) (Nat.succ_lt_succ hi))

lemma ruleLoop_error (reSearch : String → String → Option Bool)
    (name nz : String) (θ : Option ℚ) :
    ∀ (rules : List Rule) (i : Nat) (hi : i < rules.length),
      evalRule reSearch name nz θ (rules.get ⟨i, hi⟩) = .error () →
      (∀ j (hj : j < i),
        evalRule reSearch name nz θ (rules.get ⟨j, Nat.lt_trans hj hi⟩) = .ok false) →
      ruleLoop reSearch name nz θ rules = .error () := by
  intro rules
  induction rules with
  | nil =>
    intro i hi
    exact absurd hi (by simp)
  | cons r rs ih =>
    intro i hi herr hprev
    cases i with
    | zero =>
      rw [ruleLoop]
      rw [show (r :: rs).get ⟨0, hi⟩ = r from rfl] at herr
      rw [herr]
    | succ i =>
      have h0 : evalRule reSearch name nz θ r = .ok false := hprev 0 (Nat.succ_pos i)
      rw [ruleLoop, h0]
      exact ih i (by simpa using hi) herr (fun j hj => hprev (j + 1) (Nat.succ_lt_succ hj))

/-- C1: `_map_target` returns the target (and the rule) of the first rule in
declaration order whose strategy matches the name, regardless of the later
rules and of the index; and when no rule matches, the result is the same as
resolving against a pack with no rules at all, i.e. only then is the
index/fuzzy fallback consulted. -/
theorem map_target_first_rule_wins (reSearch : String → String → Option Bool)
    (name : String) (pack : MappingPack) (index : Index) :
    (∀ i (hi : i < pack.rules.length),
      evalRule reSearch name (normalize name) pack.similarity_threshold
        (pack.rules.get ⟨i, hi⟩) = .ok true →
      (∀ j (hj : j < i),
        evalRule reSearch name (normalize name) pack.similarity_threshold
          (pack.rules.get ⟨j, Nat.lt_trans hj hi⟩) = .ok false) →
      map_target reSearch name pack index =
        .ok ((pack.rules.get ⟨i, hi⟩).target, some (pack.rules.get ⟨i, hi⟩))) ∧
    ((∀ i (hi : i < pack.rules.length),
      evalRule reSearch name (normalize name) pack.similarity_threshold
        (pack.rules.get ⟨i, hi⟩) = .ok false) →
      map_target reSearch name pack index =
        map_target reSearch name ⟨[], pack.similarity_threshold⟩ index) := by
  constructor
  · intro i hi hmatch hprev
    simp only [map_target]
    rw [ruleLoop_first_match reSearch name (normalize name) pack.similarity_threshold
      pack.rules i hi hmatch hprev]
  · intro hall
    simp only [map_target]
    rw [ruleLoop_none reSearch name (normalize name) pack.similarity_threshold
      pack.rules hall]
    rfl

/-- Witness for `map_target_first_rule_wins`: an `exact` rule
`"a.mov" -> "b.mov"` declared before a `similarity` rule that also matches
`"a.mov"`; resolution returns `"b.mov"` and the exact rule. -/
theorem map_target_first_rule_wins_witness :
    map_target (fun _ _ => some false) "a.mov"
      ⟨[⟨some "a.mov", some "exact", some "b.mov", none⟩,
        ⟨some "a.mov", some "similarity", some "c.mov", none⟩], none⟩ [] =
      .ok (some "b.mov", some ⟨some "a.mov", some "exact", some "b.mov", none⟩) :=
  (map_target_first_rule_wins (fun _ _ => some false) "a.mov"
      ⟨[⟨some "a.mov", some "exact", some "b.mov", none⟩,
        ⟨some "a.mov", some "similarity", some "c.mov", none⟩], none⟩ []).1
    0 (by simp) rfl (fun j hj => absurd hj (Nat.not_lt_zero j))

lemma evalRule_regex_error (reSearch : String → String → Option Bool)
    (name nz : String) (θ : Option ℚ) (r : Rule)
    (hstrat : r.strategy = some "regex")
    (herr : reSearch (r.source.getD "") name = none) :
    evalRule reSearch name nz θ r = .error () := by
  have hs : r.strategy.getD "exact" = "regex" := by rw [hstrat]; rfl
  simp only [evalRule, hs]
  rw [if_neg (fun h => absurd h.2.2 (by decide))]
  simp only [if_true]
  rw [herr]

/-- C2 amended: a `regex` rule whose pattern fails to compile is NOT skipped
with a warning — evaluating it raises the regex error out of the rule loop,
so `_map_target` aborts with that error for the asset (and, having no
handler in `RevisionResolver.run`, for the whole run); later rules are never
consulted and no report item is produced. -/
theorem map_target_regex_error_aborts (reSearch : String → String → Option Bool)
    (name : String) (pack : MappingPack) (index : Index)
    (i : Nat) (hi : i < pack.rules.length)
    (hstrat : (pack.rules.get ⟨i, hi⟩).strategy = some "regex")
    (herr : reSearch ((pack.rules.get ⟨i, hi⟩).source.getD "") name = none)
    (hprev : ∀ j (hj : j < i),
      evalRule reSearch name (normalize name) pack.similarity_threshold
        (pack.rules.get ⟨j, Nat.lt_trans hj hi⟩) = .ok false) :
    map_target reSearch name pack index = .error () := by
  simp only [map_target]
  rw [ruleLoop_error reSearch name (normalize name) pack.similarity_threshold
    pack.rules i hi
    (evalRule_regex_error reSearch name (normalize name) pack.similarity_threshold
      (pack.rules.get ⟨i, hi⟩) hstrat herr)
    hprev]

/-- Witness for `map_target_regex_error_aborts`: the single rule has the
uncompilable pattern `"["` (modelled by `reSearch` returning `none` on it). -/
theorem map_target_regex_error_aborts_witness :
    map_target (fun pat _ => if pat = "[" then none else some false) "a.mov"
      ⟨[⟨some "[", some "regex", some "fixed.mov", none⟩], none⟩ [] = .error () :=
  map_target_regex_error_aborts (fun pat _ => if pat = "[" then none else some false)
    "a.mov" ⟨[⟨some "[", some "regex", some "fixed.mov", none⟩], none⟩ []
    0 (by simp) rfl rfl (fun j hj => absurd hj (Nat.not_lt_zero j))

/-- C2 counterexample: with a broken-pattern `regex` rule declared before an
`exact` rule that matches the asset, resolution does NOT skip the broken
rule and continue (which would return `"b.mov"` with a warning): it aborts
with the regex error, so the claimed skip-and-warn behavior does not hold. -/
theorem regex_error_not_skipped :
    map_target (fun pat _ => if pat = "[" then none else some false) "a.mov"
      ⟨[⟨some "[", some "regex", some "bad.mov", none⟩,
        ⟨some "a.mov", some "exact", some "b.mov", none⟩], none⟩ [] = .error () := rfl

lemma find_isSome_of_mem_keys : ∀ (idx : Index) (k : String),
    k ∈ keys idx → ∃ p, find idx k = some p := by
  intro idx
  induction idx with
  | nil =>
    intro k hk
    exact absurd hk (List.not_mem_nil k)
  | cons kv rest ih =>
    intro k hk
    obtain ⟨k1, v1⟩ := kv
    rw [keys_cons] at hk
    by_cases h : k1 = k
    · exact ⟨v1, by rw [find, if_pos h]⟩
    · rcases List.mem_cons.mp hk with rfl | hk2
      · exact absurd rfl h
      · obtain ⟨p, hp⟩ := ih k hk2
        exact ⟨p, by rw [find, if_neg h, hp]⟩

lemma best_match_candidate_mem (t : String) (cs : List String) (r : MatchResult)
    (h : best_match t cs = some r) : r.candidate ∈ cs := by
  cases cs with
  | nil =>
    rw [best_match] at h
    exact absurd h (by rw [bestLoop]; simp)
  | cons c cs =>
    obtain ⟨r0, hr0, hcase⟩ :=
      bestLoop_invariant t cs ⟨c, similarity_ratio (normalize t) (normalize c), "levenshtein"⟩
    rw [best_match, bestLoop, hr0] at h
    injection h with h
    subst h
    rcases hcase with ⟨rfl, _⟩ | ⟨i, hi, hcand, _⟩
    · exact List.mem_cons_self _ _
    · rw [hcand]
      exact List.mem_cons_of_mem _ (List.get_mem cs i hi)

lemma map_target_fallback (reSearch : String → String → Option Bool)
    (name : String) (pack : MappingPack) (index : Index)
    (hrules : ∀ i (hi : i < pack.rules.length),
      evalRule reSearch name (normalize name) pack.similarity_threshold
        (pack.rules.get ⟨i, hi⟩) = .ok false)
    (hmiss : find index (normalize name) = none)
    (b : MatchResult) (hb : best_match name (keys index) = some b) :
    map_target reSearch name pack index =
      if pack.similarity_threshold.getD (9 / 10) ≤ b.score then
        .ok (find index b.candidate, some emptyRule)
      else .ok (none, none) := by
  simp only [map_target]
  rw [ruleLoop_none reSearch name (normalize name) pack.similarity_threshold
    pack.rules hrules, hmiss, hb]

/-- C4: when no rule matches and the normalized name is not an index key,
`_map_target` returns the indexed path of `best_match`'s candidate exactly
when that best score is at least the pack's similarity threshold, and
returns no target when the best score is below the threshold or the index
is empty. -/
theorem map_target_fuzzy_fallback (reSearch : String → String → Option Bool)
    (name : String) (pack : MappingPack) (index : Index)
    (hrules : ∀ i (hi : i < pack.rules.length),
      evalRule reSearch name (normalize name) pack.similarity_threshold
        (pack.rules.get ⟨i, hi⟩) = .ok false)
    (hmiss : find index (normalize name) = none) :
    (∀ b, best_match name (keys index) = some b →
      (pack.similarity_threshold.getD (9 / 10) ≤ b.score →
        ∃ p, find index b.candidate = some p ∧
          map_target reSearch name pack index = .ok (some p, some emptyRule)) ∧
      (b.score < pack.similarity_threshold.getD (9 / 10) →
        map_target reSearch name pack index = .ok (none, none))) ∧
    (index = [] → map_target reSearch name pack index = .ok (none, none)) := by
  constructor
  · intro b hb
    constructor
    · intro hge
      obtain ⟨p, hp⟩ := find_isSome_of_mem_keys index b.candidate
        (best_match_candidate_mem name (keys index) b hb)
      refine ⟨p, hp, ?_⟩
      rw [map_target_fallback reSearch name pack index hrules hmiss b hb, if_pos hge, hp]
    · intro hlt
      rw [map_target_fallback reSearch name pack index hrules hmiss b hb,
        if_neg (not_le.mpr hlt)]
  · intro hidx
    subst hidx
    simp only [map_target]
    rw [ruleLoop_none reSearch name (normalize name) pack.similarity_threshold
      pack.rules hrules]
    rfl

/-- Witness for `map_target_fuzzy_fallback`: no rules, index key
`"clipfinal"`, asset `"clipfinall.mov"` whose best fuzzy score `9/14`
clears the pack threshold `1/2`, so the indexed path is returned. -/
theorem map_target_fuzzy_fallback_witness :
    ∃ p, find [("clipfinal", "/media/clip_final.mov")] "clipfinal" = some p ∧
      map_target (fun _ _ => some false) "clipfinall.mov"
        ⟨[], some (1 / 2)⟩ [("clipfinal", "/media/clip_final.mov")] =
        .ok (some p, some emptyRule) := by
  have hb : best_match "clipfinall.mov" (keys [("clipfinal", "/media/clip_final.mov")]) =
      some ⟨"clipfinal",
        similarity_ratio (normalize "clipfinall.mov") (normalize "clipfinal"),
        "levenshtein"⟩ := rfl
  have hge : ((⟨[], some (1 / 2)⟩ : MappingPack)).similarity_threshold.getD (9 / 10) ≤
      (⟨"clipfinal",
        similarity_ratio (normalize "clipfinall.mov") (normalize "clipfinal"),
        "levenshtein"⟩ : MatchResult).score := by
    show (1 / 2 : ℚ) ≤ similarity_ratio (normalize "clipfinall.mov") (normalize "clipfinal")
    have h1 : levenshtein (normalize "clipfinall.mov") (normalize "clipfinal") = 5 := by
      decide
    have h2 : (normalize "clipfinall.mov").length = 14 := by decide
    have h3 : (normalize "clipfinal").length = 9 := by decide
    rw [similarity_ratio, if_neg (by decide), h1, h2, h3]
    norm_num
  exact ((map_target_fuzzy_fallback (fun _ _ => some false) "clipfinall.mov"
      ⟨[], some (1 / 2)⟩ [("clipfinal", "/media/clip_final.mov")]
      (fun i hi => absurd hi (by simp)) rfl).1 _ hb).1 hge

lemma swapStep_eq (dryRun : Bool) (relinkOk : String → String → Bool)
    (nm tgt : String) (acc : List RecordedAction) :
    swapStep dryRun relinkOk nm tgt acc = acc ++ swapStep dryRun relinkOk nm tgt [] := by
  cases dryRun <;> by_cases h : relinkOk nm tgt <;> simp [swapStep, h]

lemma runSwaps_acc (dryRun : Bool) (relinkOk : String → String → Bool) :
    ∀ (pairs : List (String × String)) (acc : List RecordedAction),
      runSwaps dryRun relinkOk pairs acc = acc ++ runSwaps dryRun relinkOk pairs [] := by
  intro pairs
  induction pairs with
  | nil =>
    intro acc
    simp [runSwaps]
  | cons p ps ih =>
    intro acc
    obtain ⟨nm, tgt⟩ := p
    rw [runSwaps, runSwaps, ih (swapStep dryRun relinkOk nm tgt acc),
      ih (swapStep dryRun relinkOk nm tgt []), swapStep_eq dryRun relinkOk nm tgt acc,
      List.append_assoc]

lemma runSwaps_mem (dryRun : Bool) (relinkOk : String → String → Bool) :
    ∀ (pairs : List (String × String)) (nm tgt : String),
      (nm, tgt) ∈ pairs → (dryRun = true ∨ relinkOk nm tgt = true) →
      (⟨"relink", nm, tgt, dryRun⟩ : RecordedAction) ∈
        runSwaps dryRun relinkOk pairs [] := by
  intro pairs
  induction pairs with
  | nil =>
    intro nm tgt h
    exact absurd h (List.not_mem_nil _)
  | cons p ps ih =>
    intro nm tgt hmem hok
    obtain ⟨nm0, tgt0⟩ := p
    rw [runSwaps, runSwaps_acc]
    rcases List.mem_cons.mp hmem with heq | hmem2
    · injection heq with h1 h2
      subst h1
      subst h2
      apply List.mem_append_left
      cases dryRun with
      | true => simp [swapStep]
      | false =>
        rcases hok with hd | hr
        · exact absurd hd (by simp)
        · simp [swapStep, hr]
    · exact List.mem_append_right _ (ih nm tgt hmem2 hok)

lemma runSwaps_not_mem (relinkOk : String → String → Bool) :
    ∀ (pairs : List (String × String)) (nm tgt : String),
      relinkOk nm tgt = false →
      (⟨"relink", nm, tgt, false⟩ : RecordedAction) ∉
        runSwaps false relinkOk pairs [] := by
  intro pairs
  induction pairs with
  | nil =>
    intro nm tgt h
    simp [runSwaps]
  | cons p ps ih =>
    intro nm tgt hr hmem
    obtain ⟨nm0, tgt0⟩ := p
    rw [runSwaps, runSwaps_acc] at hmem
    rcases List.mem_append.mp hmem with h | h
    · by_cases h0 : relinkOk nm0 tgt0 = true
      · rw [swapStep, if_neg (by simp), if_pos h0] at h
        have heq := List.mem_singleton.mp h
        injection heq with e1 e2 e3 e4
        subst e2
        subst e3
        rw [h0] at hr
        exact absurd hr (by simp)
      · rw [swapStep, if_neg (by simp), if_neg h0] at h
        exact absurd h (List.not_mem_nil _)
    · exact ih nm tgt hr h

/-- C5 amended: an action is recorded in the transaction for a resolved
asset in dry-run mode unconditionally, but in committed mode only when the
external relink succeeds — a failed relink produces an error report item and
NO recorded action. -/
theorem runSwaps_records_iff (dryRun : Bool) (relinkOk : String → String → Bool)
    (pairs : List (String × String)) :
    (∀ nm tgt, (nm, tgt) ∈ pairs → (dryRun = true ∨ relinkOk nm tgt = true) →
      (⟨"relink", nm, tgt, dryRun⟩ : RecordedAction) ∈
        runSwaps dryRun relinkOk pairs []) ∧
    (dryRun = false → ∀ nm tgt, relinkOk nm tgt = false →
      (⟨"relink", nm, tgt, false⟩ : RecordedAction) ∉
        runSwaps dryRun relinkOk pairs []) := by
  constructor
  · exact runSwaps_mem dryRun relinkOk pairs
  · intro hd nm tgt hr
    subst hd
    exact runSwaps_not_mem relinkOk pairs nm tgt hr

/-- Witness for `runSwaps_records_iff`: in dry-run mode the resolved pair
`("a.mov", "b.mov")` is recorded even though the external relink would
fail. -/
theorem runSwaps_records_iff_witness :
    (⟨"relink", "a.mov", "b.mov", true⟩ : RecordedAction) ∈
      runSwaps true (fun _ _ => false) [("a.mov", "b.mov")] [] :=
  (runSwaps_records_iff true (fun _ _ => false) [("a.mov", "b.mov")]).1
    "a.mov" "b.mov" (by simp) (Or.inl rfl)

/-- C5 counterexample: in committed mode (`dry_run = False`), a resolved
asset whose external relink fails leaves the transaction's action log empty
— the attempted mutation is NOT recorded, contradicting the claim that every
resolved asset is recorded whether or not the relink succeeded. -/
theorem relink_failure_not_recorded :
    runSwaps false (fun _ _ => false) [("a.mov", "b.mov")] [] = [] := rfl

end DavinciSuite
